import Mathlib

/-!
Verification of the FHE-zkVM demo's additive homomorphic encryption scheme
(`src/methods/guest/src/pure_rust_fhe.rs`) and external-challenger protocol
(`src/challenger.rs`), as a shallow embedding in Lean 4.

Machine integers (`u64`) are modelled as `Nat` with explicit `% 2 ^ 64` where
the source can overflow; `i64` values are modelled as `Int`.  Coefficient
vectors (`Vec<u64>`) are `List Nat`.  Randomness (the `rand::thread_rng` /
Gaussian draws) is modelled by explicit oracle parameters: each draw the
source takes from the RNG becomes a function argument, and the bounding
operation the source applies to the draw (`% MAX_NOISE_BOUND`,
`% CIPHERTEXT_MODULUS`, `gen_range(0..3)` as `% 3`) is applied inside the
embedded definition, exactly where the source applies it.
-/

namespace FheZkvm

/-- `PLAINTEXT_MODULUS` from `pure_rust_fhe.rs` line 11 (same constant in
`challenger.rs` line 13). -/
def PLAINTEXT_MODULUS : Nat := 65537

/-- `CIPHERTEXT_MODULUS` from `pure_rust_fhe.rs` line 12 (2^58). -/
def CIPHERTEXT_MODULUS : Nat := 288230376151711744

/-- `POLYNOMIAL_DEGREE` from `pure_rust_fhe.rs` line 13. -/
def POLYNOMIAL_DEGREE : Nat := 32

/-- `MAX_NOISE_BOUND = PLAINTEXT_MODULUS / 16` from `pure_rust_fhe.rs` line 17. -/
def MAX_NOISE_BOUND : Nat := PLAINTEXT_MODULUS / 16

/-- `scaling_factor = CIPHERTEXT_MODULUS / PLAINTEXT_MODULUS` (a local `let`
recomputed in `encrypt` / `decrypt` in both files; `S = floor(Q/P)` in the
spec's terms). -/
def scaling_factor : Nat := CIPHERTEXT_MODULUS / PLAINTEXT_MODULUS

/-- One `u64` bound: values of machine type `u64` lie below `U64`. -/
def U64 : Nat := 2 ^ 64

/-- `Signed` wrapper over `i64` (`pure_rust_fhe.rs` lines 33-36). -/
structure Signed where
  val : Int
deriving DecidableEq, Repr

/-- `PublicKey` (`pure_rust_fhe.rs` lines 48-52). -/
structure PublicKey where
  key_data : List Nat
deriving DecidableEq, Repr

/-- `PrivateKey` (`pure_rust_fhe.rs` lines 54-58). -/
structure PrivateKey where
  secret_data : List Nat
deriving DecidableEq, Repr

/-- `Cipher<T>` (`pure_rust_fhe.rs` lines 60-65); the phantom type parameter
is dropped (it carries no data) and all uses instantiate `T = Signed`. -/
structure Cipher where
  ciphertext_data : List Nat
deriving DecidableEq, Repr

/-- Reasons inside `FheError::EncryptionFailed { reason: String }`; the two
distinct format strings produced at `pure_rust_fhe.rs` lines 153-165 are
modelled as constructors carrying the formatted-in values. -/
inductive EncFailReason where
  /-- "Negative plaintext values not supported: {v}" -/
  | negativePlaintext (v : Int)
  /-- "Plaintext value {v} exceeds modulus {PLAINTEXT_MODULUS}" -/
  | exceedsModulus (v : Nat)
deriving DecidableEq, Repr

/-- `FheError` (`pure_rust_fhe.rs` lines 19-31), restricted to the variants
the embedded operations can produce. -/
inductive FheError where
  /-- `InvalidCiphertextLength { expected, actual }` -/
  | invalidCiphertextLength (expected actual : Nat)
  /-- `InvalidByteSlice` -/
  | invalidByteSlice
  /-- `EncryptionFailed { reason }` -/
  | encryptionFailed (reason : EncFailReason)
deriving DecidableEq, Repr

/-- `u64::to_le_bytes`: the 8 little-endian base-256 digits of a `u64`
(`val.to_le_bytes()` in `Cipher::serialize`, `pure_rust_fhe.rs` line 72). -/
def u64ToLeBytes (v : Nat) : List Nat :=
  (List.range 8).map (fun i => v / 256 ^ i % 256)

/-- `u64::from_le_bytes` on an 8-byte chunk (`pure_rust_fhe.rs` line 239):
recombines little-endian base-256 digits. -/
def u64FromLeBytes (bs : List Nat) : Nat :=
  bs.foldr (fun b acc => b + 256 * acc) 0

/-- `Cipher::serialize` (`pure_rust_fhe.rs` lines 68-76): concatenate the
little-endian bytes of each coefficient in order.  `serialize_ciphertext`
in `challenger.rs` lines 268-274 is byte-for-byte the same loop. -/
def Cipher.serialize (c : Cipher) : List Nat :=
  (c.ciphertext_data.map u64ToLeBytes).flatten

/-- One coefficient of ciphertext addition (`impl Add for Cipher<Signed>`,
`pure_rust_fhe.rs` lines 88-99): `a.checked_add(b)` is `Some` exactly when
`a + b` fits in a `u64`, otherwise the fallback `(a % Q) + (b % Q)` is used;
either way the result is reduced `% CIPHERTEXT_MODULUS`. -/
def addCoeff (a b : Nat) : Nat :=
  (if a + b < U64 then a + b else a % CIPHERTEXT_MODULUS + b % CIPHERTEXT_MODULUS)
    % CIPHERTEXT_MODULUS

/-- `impl std::ops::Add for Cipher<Signed>` (`pure_rust_fhe.rs` lines 79-107):
a `2n`-length zero vector is filled component-wise with `addCoeff` for
indices below `min` of the two lengths.  (For inputs longer than `2n` the
source would panic writing past `result_data`; every use here has length
exactly `2n`.) -/
def cipherAdd (c1 c2 : Cipher) : Cipher :=
  let len := min c1.ciphertext_data.length c2.ciphertext_data.length
  ⟨(List.range (POLYNOMIAL_DEGREE * 2)).map (fun i =>
      if i < len then addCoeff (c1.ciphertext_data.getD i 0) (c2.ciphertext_data.getD i 0)
      else 0)⟩

/-- `PureRustFheRuntime::encrypt` (`pure_rust_fhe.rs` lines 148-206).
`pk` is the `_public_key` argument, accepted but never read by the source.
`noise` models the Gaussian draw for coefficient 0 (`|sample| as u64`, before
the source's `% MAX_NOISE_BOUND`); `coeffNoise i` models the draw for
coefficient `i ≥ 1` (before the source's `% CIPHERTEXT_MODULUS`).
The runtime receiver (`&self`) carries no data the function reads. -/
def encrypt (plaintext : Signed) (pk : PublicKey) (noise : Nat) (coeffNoise : Nat → Nat) :
    Except FheError Cipher :=
  if plaintext.val < 0 then
    .error (.encryptionFailed (.negativePlaintext plaintext.val))
  else
    let plaintext_u64 := plaintext.val.toNat
    if PLAINTEXT_MODULUS ≤ plaintext_u64 then
      .error (.encryptionFailed (.exceedsModulus plaintext_u64))
    else
      let plaintext_val := plaintext_u64 % PLAINTEXT_MODULUS
      let scaled_plaintext := plaintext_val * scaling_factor
      let noise_magnitude := noise % MAX_NOISE_BOUND
      let c0 := (scaled_plaintext + noise_magnitude) % CIPHERTEXT_MODULUS
      let rest := (List.range (POLYNOMIAL_DEGREE * 2 - 1)).map
        (fun i => coeffNoise (i + 1) % CIPHERTEXT_MODULUS)
      .ok ⟨c0 :: rest⟩

/-- `PureRustFheRuntime::decrypt` (`pure_rust_fhe.rs` lines 208-223).
The `key` argument is the source's `_private_key`, accepted but never read.
The source indexes `ciphertext_data[0]` (panicking on an empty vector, which
no caller produces); `headD 0` reads the same coefficient. -/
def decrypt (ciphertext : Cipher) (key : PrivateKey) : Except FheError Signed :=
  let noisy_scaled_plaintext := ciphertext.ciphertext_data.headD 0
  let descaled_val := noisy_scaled_plaintext / scaling_factor
  let decrypted_val := descaled_val % PLAINTEXT_MODULUS
  .ok ⟨(decrypted_val : Int)⟩

/-- `PureRustFheRuntime::deserialize_ciphertext` (`pure_rust_fhe.rs` lines
225-246): length must be exactly `POLYNOMIAL_DEGREE * 2 * 8`; then each
8-byte chunk is decoded little-endian, in order.  (The source's `try_into`
failure `InvalidByteSlice` is unreachable once the length check passed.) -/
def deserialize_ciphertext (data : List Nat) : Except FheError Cipher :=
  let expected_len := POLYNOMIAL_DEGREE * 2 * 8
  if data.length ≠ expected_len then
    .error (.invalidCiphertextLength expected_len data.length)
  else
    .ok ⟨(List.range (POLYNOMIAL_DEGREE * 2)).map
      (fun i => u64FromLeBytes ((data.drop (i * 8)).take 8))⟩

/-- `homomorphic_add` (`pure_rust_fhe.rs` lines 250-260): wraps `+` on
ciphertexts; the `_runtime` and `_public_key` arguments are never read.
It always returns `Ok` of a one-element vector. -/
def homomorphic_add (current_tally vote : Cipher) : Except FheError (List Cipher) :=
  .ok [cipherAdd current_tally vote]

/-! ## Challenger (`src/challenger.rs`)

`challenger.rs` redeclares the same constants (lines 13-16) and the same
`PublicKey` / `PrivateKey` / `Cipher` / `Signed` shapes (lines 24-49); the
structures above are reused for them.  The `f64` field `noise_std_dev`
(constant `3.19`) is floating-point configuration data never used in any
integer computation modelled here; it is carried as an opaque unit. -/

/-- `as u64` cast of an `i64` value (two's-complement reinterpretation). -/
def toU64 (v : Int) : Nat := (v % (U64 : Int)).toNat

/-- `FheParameters` (`challenger.rs` lines 67-73); `noise_std_dev : f64` is
outside the integer model and not read by any modelled computation. -/
structure FheParameters where
  plaintext_modulus : Nat
  ciphertext_modulus : Nat
  polynomial_degree : Nat
deriving DecidableEq, Repr

/-- `ChallengeKeys` (`challenger.rs` lines 18-22). -/
structure ChallengeKeys where
  public_key : PublicKey
  private_key : PrivateKey
deriving DecidableEq, Repr

/-- `ChallengeMetadata` (`challenger.rs` lines 59-65). -/
structure ChallengeMetadata where
  test_id : String
  challenge_plaintexts : List Int
  expected_operations : List String
  timestamp : Nat
deriving DecidableEq, Repr

/-- `ChallengeInput` (`challenger.rs` lines 51-57): the struct
`create_challenge` assembles and `verify_zkvm_result` consumes; the
ciphertext entries are serialized byte strings. -/
structure ChallengeInput where
  parameters : FheParameters
  public_key : PublicKey
  challenge_ciphertexts : List (List Nat)
  challenge_metadata : ChallengeMetadata
deriving DecidableEq, Repr

/-- Errors of `ExternalChallenger::deserialize_and_decrypt` (`challenger.rs`
lines 276-299); the source returns format strings, modelled as constructors
carrying the formatted-in values. -/
inductive ChalError where
  /-- "Invalid ciphertext length: expected {expected}, got {actual}" -/
  | invalidCiphertextLength (expected actual : Nat)
  /-- "Invalid byte slice conversion" (unreachable after the length check) -/
  | invalidByteSlice
deriving DecidableEq, Repr

/-- The distinct `error` strings `verify_zkvm_result` can produce
(`challenger.rs` lines 188, 207, 232), as constructors carrying the
formatted-in values. -/
inductive VerifyError where
  /-- "zkVM receipt validation failed" -/
  | receiptValidationFailed
  /-- "Decryption failed for result {idx}: {e}" (idx is 1-based) -/
  | decryptionFailed (idx : Nat) (e : ChalError)
  /-- "FHE arithmetic mismatch: expected sum {expected}, got {actual}" -/
  | arithmeticMismatch (expected actual : Int)
deriving DecidableEq, Repr

/-- The distinct `verification_log` strings (`challenger.rs` lines 190, 202,
220, 221), as constructors carrying the formatted-in values. -/
inductive LogEntry where
  /-- "RECEIPT_INVALID" -/
  | receiptInvalid
  /-- "Result {idx}: decrypted to {val}" (idx is 1-based) -/
  | resultDecrypted (idx : Nat) (val : Int)
  /-- "✅ FHE COMPUTATION VERIFIED: Homomorphic addition correct" -/
  | fheComputationVerified
  /-- "✅ PROOF COMPLETE: Real FHE operations occurred inside zkVM" -/
  | proofComplete
deriving DecidableEq, Repr

/-- `VerificationResult` (`challenger.rs` lines 315-321). -/
structure VerificationResult where
  success : Bool
  error : Option VerifyError
  decrypted_results : Option (List Int)
  verification_log : List LogEntry
deriving DecidableEq, Repr

/-- `ExternalChallenger::generate_challenge_keys` (`challenger.rs` lines
102-117): `sdraw i` / `kdraw i` model the RNG draws, bounded as the source's
`gen_range(0..modulus)` bounds them. -/
def generate_challenge_keys (sdraw kdraw : Nat → Nat) : ChallengeKeys :=
  { public_key := ⟨(List.range POLYNOMIAL_DEGREE).map (fun i => kdraw i % CIPHERTEXT_MODULUS)⟩,
    private_key := ⟨(List.range POLYNOMIAL_DEGREE).map (fun i => sdraw i % PLAINTEXT_MODULUS)⟩ }

/-- `ExternalChallenger::encrypt` (`challenger.rs` lines 239-266).  Unlike
the scheme's `encrypt` it performs no range validation: the plaintext is cast
`as u64` and reduced `% PLAINTEXT_MODULUS`.  Its only `Err` path is
`Normal::new` failing, which cannot happen for the fixed positive standard
deviation, so the embedding is total. -/
def challengerEncrypt (plaintext : Signed) (noise : Nat) (coeffNoise : Nat → Nat) : Cipher :=
  let plaintext_val := toU64 plaintext.val % PLAINTEXT_MODULUS
  let scaled_plaintext := plaintext_val * scaling_factor
  let noise_magnitude := noise % (PLAINTEXT_MODULUS / 16)
  let c0 := (scaled_plaintext + noise_magnitude) % CIPHERTEXT_MODULUS
  let rest := (List.range (POLYNOMIAL_DEGREE * 2 - 1)).map
    (fun i => coeffNoise (i + 1) % CIPHERTEXT_MODULUS)
  ⟨c0 :: rest⟩

/-- `ExternalChallenger::serialize_ciphertext` (`challenger.rs` lines
268-274): the same loop as `Cipher::serialize`. -/
def serialize_ciphertext (c : Cipher) : List Nat :=
  c.serialize

/-- `ExternalChallenger::create_challenge` (`challenger.rs` lines 123-167).
`voteDraws i` models `rng.gen_range(0..3)` for vote `i` (bounded `% 3` as
`gen_range` bounds it); `noiseDraws` / `coeffDraws` model the per-vote
encryption randomness; `timestamp` models the `SystemTime` read. -/
def create_challenge (keys : ChallengeKeys) (parameters : FheParameters)
    (test_id : String) (num_votes : Nat)
    (voteDraws : Nat → Nat) (noiseDraws : Nat → Nat) (coeffDraws : Nat → Nat → Nat)
    (timestamp : Nat) : ChallengeInput :=
  let challenge_plaintexts := (List.range num_votes).map (fun i => ((voteDraws i % 3 : Nat) : Int))
  let challenge_ciphertexts := (List.range num_votes).map (fun i =>
    serialize_ciphertext (challengerEncrypt ⟨((voteDraws i % 3 : Nat) : Int)⟩
      (noiseDraws i) (coeffDraws i)))
  { parameters := parameters,
    public_key := keys.public_key,
    challenge_ciphertexts := challenge_ciphertexts,
    challenge_metadata :=
      { test_id := test_id,
        challenge_plaintexts := challenge_plaintexts,
        expected_operations := ["HomomorphicAdd", "DecryptFinalTallies"],
        timestamp := timestamp } }

/-- `ExternalChallenger::deserialize_and_decrypt` (`challenger.rs` lines
276-299): inlines the same length check and little-endian decoding as
`deserialize_ciphertext`, then decrypts coefficient 0 exactly as the
scheme's `decrypt` does (no use of the private key). -/
def deserialize_and_decrypt (data : List Nat) : Except ChalError Signed :=
  let expected_len := POLYNOMIAL_DEGREE * 2 * 8
  if data.length ≠ expected_len then
    .error (.invalidCiphertextLength expected_len data.length)
  else
    let ciphertext_data := (List.range (POLYNOMIAL_DEGREE * 2)).map
      (fun i => u64FromLeBytes ((data.drop (i * 8)).take 8))
    let noisy_scaled_plaintext := ciphertext_data.headD 0
    let descaled_val := noisy_scaled_plaintext / scaling_factor
    let decrypted_val := descaled_val % PLAINTEXT_MODULUS
    .ok ⟨(decrypted_val : Int)⟩

/-- `ExternalChallenger::verify_receipt` (`challenger.rs` lines 301-308):
ignores its argument and returns `true` ("For demo purposes"). -/
def verify_receipt (receipt : List Nat) : Bool :=
  true

/-- The decryption loop of `verify_zkvm_result` (`challenger.rs` lines
195-213): iterate over the result ciphertexts with 0-based index `i`
(log/error messages use `i + 1`); on the first failure return the failing
index, the underlying error, and the log accumulated so far; on success
return all decrypted values and the full log. -/
def decryptResults (cts : List (List Nat)) (i : Nat) :
    Except (Nat × ChalError × List LogEntry) (List Int × List LogEntry) :=
  match cts with
  | [] => .ok ([], [])
  | c :: rest =>
    match deserialize_and_decrypt c with
    | .ok plaintext =>
      match decryptResults rest (i + 1) with
      | .ok (vals, log) =>
        .ok (plaintext.val :: vals, .resultDecrypted (i + 1) plaintext.val :: log)
      | .error (j, e, log) =>
        .error (j, e, .resultDecrypted (i + 1) plaintext.val :: log)
    | .error e => .error (i + 1, e, [])

/-- `ExternalChallenger::verify_zkvm_result` (`challenger.rs` lines 175-237),
with the receipt-verification collaborator abstracted as the parameter
`receiptVerifier` (the spec's §6 external interface); the source hardwires
`Self::verify_receipt`, recovered below as `verify_zkvm_result`. -/
def verifyZkvmResultWith (receiptVerifier : List Nat → Bool)
    (challenge_input : ChallengeInput) (zkvm_receipt : List Nat)
    (result_ciphertexts : List (List Nat)) : VerificationResult :=
  if receiptVerifier zkvm_receipt = false then
    { success := false,
      error := some .receiptValidationFailed,
      decrypted_results := none,
      verification_log := [.receiptInvalid] }
  else
    match decryptResults result_ciphertexts 0 with
    | .error (idx, e, log) =>
      { success := false,
        error := some (.decryptionFailed idx e),
        decrypted_results := none,
        verification_log := log }
    | .ok (decrypted_results, log) =>
      let expected_sum : Int := challenge_input.challenge_metadata.challenge_plaintexts.sum
      let actual_sum : Int := decrypted_results.sum
      if expected_sum = actual_sum then
        { success := true,
          error := none,
          decrypted_results := some decrypted_results,
          verification_log := log ++ [.fheComputationVerified, .proofComplete] }
      else
        { success := false,
          error := some (.arithmeticMismatch expected_sum actual_sum),
          decrypted_results := some decrypted_results,
          verification_log := log }

/-- `verify_zkvm_result` as the source composes it: the receipt check is the
in-repo stub `verify_receipt`. -/
def verify_zkvm_result (challenge_input : ChallengeInput) (zkvm_receipt : List Nat)
    (result_ciphertexts : List (List Nat)) : VerificationResult :=
  verifyZkvmResultWith verify_receipt challenge_input zkvm_receipt result_ciphertexts

/-- The value `verify_zkvm_result`'s loop decrypts from one serialized result
ciphertext of valid length: little-endian decode of the first 8 bytes
(coefficient 0), descaled and reduced.  Used to state what the loop produces;
`deserialize_and_decrypt_ok` below proves it against the embedded source. -/
def chalDecryptVal (data : List Nat) : Int :=
  ((u64FromLeBytes (data.take 8) / scaling_factor % PLAINTEXT_MODULUS : Nat) : Int)

/-- The log the decryption loop of `verify_zkvm_result` appends for a run of
successfully decrypted result ciphertexts, starting at 0-based index `i`. -/
def decryptLogFrom (i : Nat) : List (List Nat) → List LogEntry
  | [] => []
  | c :: rest => .resultDecrypted (i + 1) (chalDecryptVal c) :: decryptLogFrom (i + 1) rest

/-- The `verification_log` carried by either outcome of the decryption loop
(proof helper for reasoning about `decryptResults` uniformly). -/
def resultLog : Except (Nat × ChalError × List LogEntry) (List Int × List LogEntry) → List LogEntry
  | .ok (_, log) => log
  | .error (_, _, log) => log

end FheZkvm

deriving instance DecidableEq for Except

namespace FheZkvm

/-! ## Helper lemmas -/

/-- Both branches of the overflow-guarded addition compute `(a + b) % Q`:
the fallback path is sound by modular arithmetic. -/
theorem addCoeff_eq (a b : Nat) : addCoeff a b = (a + b) % CIPHERTEXT_MODULUS := by
  unfold addCoeff
  split
  · rfl
  · rw [Nat.add_mod a b]

theorem getD_drop (l : List Nat) (n j : Nat) : (l.drop n).getD j 0 = l.getD (n + j) 0 := by
  simp [List.getD_eq_getElem?_getD, List.getElem?_drop]

theorem getD_take (l : List Nat) {k j : Nat} (h : j < k) : (l.take k).getD j 0 = l.getD j 0 := by
  simp [List.getD_eq_getElem?_getD, List.getElem?_take, h]

theorem getD_map_range (g : Nat → Nat) (k i : Nat) (h : i < k) :
    ((List.range k).map g).getD i 0 = g i := by
  simp [List.getD_eq_getElem?_getD, List.getElem?_range, h]

/-- `u64FromLeBytes` is the base-256 weighted sum of its byte list. -/
theorem fromLe_eq_sum (bs : List Nat) :
    u64FromLeBytes bs = ∑ j ∈ Finset.range bs.length, bs.getD j 0 * 256 ^ j := by
  induction bs with
  | nil => simp [u64FromLeBytes]
  | cons b t ih =>
    show b + 256 * u64FromLeBytes t = _
    rw [List.length_cons, Finset.sum_range_succ']
    simp only [List.getD_cons_succ, List.getD_cons_zero, pow_zero, mul_one, pow_succ]
    rw [ih, Finset.mul_sum, add_comm]
    congr 1
    exact Finset.sum_congr rfl (fun j _ => by ring)

/-- `u64FromLeBytes` over a tabulated byte list. -/
theorem fromLe_map_range (g : Nat → Nat) (k : Nat) :
    u64FromLeBytes ((List.range k).map g) = ∑ j ∈ Finset.range k, g j * 256 ^ j := by
  rw [fromLe_eq_sum]
  simp only [List.length_map, List.length_range]
  exact Finset.sum_congr rfl (fun j hj => by
    rw [getD_map_range g k j (Finset.mem_range.mp hj)])

/-- Little-endian digits recombine to the value modulo `256 ^ k`. -/
theorem sum_le_digits (k v : Nat) :
    ∑ j ∈ Finset.range k, v / 256 ^ j % 256 * 256 ^ j = v % 256 ^ k := by
  induction k with
  | zero => simp [Nat.mod_one]
  | succ k ih =>
    rw [Finset.sum_range_succ, ih, pow_succ, Nat.mod_mul]
    ring_nf

/-- Round trip of one coefficient: decoding the 8 little-endian bytes of a
`u64` value recovers it. -/
theorem fromLe_toLe (v : Nat) (h : v < U64) : u64FromLeBytes (u64ToLeBytes v) = v := by
  rw [u64ToLeBytes, fromLe_map_range, sum_le_digits]
  exact Nat.mod_eq_of_lt (by simpa [U64] using h)

theorem length_u64ToLeBytes (v : Nat) : (u64ToLeBytes v).length = 8 := by
  simp [u64ToLeBytes]

/-- A serialized ciphertext has 8 bytes per coefficient. -/
theorem length_serialize (c : Cipher) :
    (Cipher.serialize c).length = 8 * c.ciphertext_data.length := by
  unfold Cipher.serialize
  induction c.ciphertext_data with
  | nil => rfl
  | cons a t ih => simp_all [length_u64ToLeBytes, Nat.mul_succ]; omega

/-- Decoding the concatenated little-endian bytes of a `u64` list chunk by
chunk recovers the list. -/
theorem decode_flatten (l : List Nat) (h : ∀ v ∈ l, v < U64) :
    (List.range l.length).map
        (fun i => u64FromLeBytes ((((l.map u64ToLeBytes).flatten).drop (i * 8)).take 8)) = l := by
  induction l with
  | nil => rfl
  | cons a t ih =>
    simp only [List.map_cons, List.flatten_cons, List.length_cons, List.range_succ_eq_map,
      List.map_map]
    rw [List.cons.injEq]
    refine ⟨?_, ?_⟩
    · rw [Nat.zero_mul, List.drop_zero,
        show (8 : Nat) = (u64ToLeBytes a).length from (length_u64ToLeBytes a).symm,
        List.take_left]
      exact fromLe_toLe a (h a (List.mem_cons_self a t))
    · have step : ∀ i : Nat,
          (((u64ToLeBytes a ++ (t.map u64ToLeBytes).flatten).drop (Nat.succ i * 8)).take 8)
            = (((t.map u64ToLeBytes).flatten).drop (i * 8)).take 8 := by
        intro i
        have h8 : Nat.succ i * 8 = (u64ToLeBytes a).length + i * 8 := by
          rw [length_u64ToLeBytes]; omega
        rw [h8, List.drop_append]
      refine Eq.trans (List.map_congr_left fun i _ => ?_)
        (ih fun v hv => h v (List.mem_cons_of_mem a hv))
      simp only [Function.comp_apply]
      exact congrArg u64FromLeBytes (step i)

theorem getD_zero_eq_headD (l : List Nat) : l.getD 0 0 = l.headD 0 := by
  cases l <;> rfl

theorem headD_map_range (g : Nat → Nat) (k : Nat) (h : 0 < k) :
    ((List.range k).map g).headD 0 = g 0 := by
  cases k with
  | zero => omega
  | succ n => rw [List.range_succ_eq_map, List.map_cons]; rfl

/-- Coefficient 0 of ciphertext addition is the overflow-guarded modular sum
of the inputs' coefficients 0. -/
theorem cipherAdd_headD (c1 c2 : Cipher)
    (h1 : c1.ciphertext_data ≠ []) (h2 : c2.ciphertext_data ≠ []) :
    (cipherAdd c1 c2).ciphertext_data.headD 0
      = addCoeff (c1.ciphertext_data.headD 0) (c2.ciphertext_data.headD 0) := by
  unfold cipherAdd
  rw [headD_map_range _ _ (by decide)]
  rw [if_pos (Nat.lt_min.mpr ⟨List.length_pos.mpr h1, List.length_pos.mpr h2⟩)]
  rw [getD_zero_eq_headD, getD_zero_eq_headD]

/-- `encrypt` on an in-range natural plaintext: the shape of the produced
ciphertext. -/
theorem encrypt_ok (a : Nat) (pk : PublicKey) (noise : Nat) (cn : Nat → Nat)
    (ha : a < PLAINTEXT_MODULUS) :
    encrypt ⟨(a : Int)⟩ pk noise cn =
      .ok ⟨(a * scaling_factor + noise % MAX_NOISE_BOUND) % CIPHERTEXT_MODULUS ::
           (List.range (POLYNOMIAL_DEGREE * 2 - 1)).map (fun i => cn (i + 1) % CIPHERTEXT_MODULUS)⟩ := by
  unfold encrypt
  rw [if_neg (by simp : ¬((Signed.mk (a : Int)).val < 0))]
  have htn : (Signed.mk (a : Int)).val.toNat = a := Int.toNat_natCast a
  rw [htn, if_neg (by omega), Nat.mod_eq_of_lt ha]

/-- The `as u64` cast is the identity on natural values below `2 ^ 64`. -/
theorem toU64_natCast (x : Nat) (h : x < U64) : toU64 (x : Int) = x := by
  unfold toU64
  rw [Int.emod_eq_of_lt (by exact_mod_cast Int.ofNat_nonneg x) (by exact_mod_cast h)]
  exact Int.toNat_natCast x

/-- The scaled plaintext plus bounded noise stays below the ciphertext
modulus for in-range plaintexts. -/
theorem scaled_add_noise_lt (a n : Nat) (ha : a < PLAINTEXT_MODULUS) (hn : n < MAX_NOISE_BOUND) :
    a * scaling_factor + n < CIPHERTEXT_MODULUS := by
  have h1 : a * scaling_factor ≤ (PLAINTEXT_MODULUS - 1) * scaling_factor :=
    Nat.mul_le_mul_right _ (by omega)
  have h2 : (PLAINTEXT_MODULUS - 1) * scaling_factor + MAX_NOISE_BOUND < CIPHERTEXT_MODULUS := by
    decide
  omega

/-! ## Claim theorems -/

/-- Claim C1: for plaintexts `a, b ∈ [0, P)`, when the accumulated noise of
the sum ciphertext (the two bounded noise magnitudes added) stays below
`S / 2` and `a + b` stays inside the noise-correctness bound (the scaled sum
plus noise does not wrap modulo `Q`), decrypting the homomorphic sum of
their encryptions yields `(a + b) % P` — for any noise draws, any mask
coefficients, any public keys used to encrypt and any private key used to
decrypt. -/
theorem C1_add_homomorphism (a b : Nat) (pk1 pk2 : PublicKey) (na nb : Nat)
    (ra rb : Nat → Nat) (key : PrivateKey)
    (ha : a < PLAINTEXT_MODULUS) (hb : b < PLAINTEXT_MODULUS)
    (hnoise : na % MAX_NOISE_BOUND + nb % MAX_NOISE_BOUND < scaling_factor / 2)
    (hbound : (a + b) * scaling_factor + (na % MAX_NOISE_BOUND + nb % MAX_NOISE_BOUND)
        < CIPHERTEXT_MODULUS) :
    (do
      let ca ← encrypt ⟨(a : Int)⟩ pk1 na ra
      let cb ← encrypt ⟨(b : Int)⟩ pk2 nb rb
      decrypt (cipherAdd ca cb) key) = .ok ⟨(((a + b) % PLAINTEXT_MODULUS : Nat) : Int)⟩ := by
  rw [encrypt_ok a pk1 na ra ha, encrypt_ok b pk2 nb rb hb]
  show decrypt (cipherAdd ⟨_ :: _⟩ ⟨_ :: _⟩) key = _
  unfold decrypt
  rw [cipherAdd_headD _ _ (by simp) (by simp)]
  simp only [List.headD_cons]
  have hna : na % MAX_NOISE_BOUND < MAX_NOISE_BOUND := Nat.mod_lt _ (by decide)
  have hnb : nb % MAX_NOISE_BOUND < MAX_NOISE_BOUND := Nat.mod_lt _ (by decide)
  rw [Nat.mod_eq_of_lt (scaled_add_noise_lt a _ ha hna),
    Nat.mod_eq_of_lt (scaled_add_noise_lt b _ hb hnb), addCoeff_eq]
  have hsum : a * scaling_factor + na % MAX_NOISE_BOUND
      + (b * scaling_factor + nb % MAX_NOISE_BOUND)
      = (na % MAX_NOISE_BOUND + nb % MAX_NOISE_BOUND) + scaling_factor * (a + b) := by ring
  have hlt : na % MAX_NOISE_BOUND + nb % MAX_NOISE_BOUND < scaling_factor :=
    lt_of_lt_of_le hnoise (Nat.div_le_self _ _)
  have hb2 : na % MAX_NOISE_BOUND + nb % MAX_NOISE_BOUND + scaling_factor * (a + b)
      < CIPHERTEXT_MODULUS := by
    rw [mul_comm] at hbound
    omega
  rw [hsum, Nat.mod_eq_of_lt hb2, Nat.add_mul_div_left _ _ (by decide : 0 < scaling_factor),
    Nat.div_eq_of_lt hlt, Nat.zero_add]

/-- Claim C1 witness: at `a = 5`, `b = 3` with zero noise draws the
hypotheses hold and the homomorphic sum decrypts to `8`. -/
theorem C1_add_homomorphism_witness :
    (5 : Nat) < PLAINTEXT_MODULUS ∧ (3 : Nat) < PLAINTEXT_MODULUS
    ∧ 0 % MAX_NOISE_BOUND + 0 % MAX_NOISE_BOUND < scaling_factor / 2
    ∧ (5 + 3) * scaling_factor + (0 % MAX_NOISE_BOUND + 0 % MAX_NOISE_BOUND) < CIPHERTEXT_MODULUS
    ∧ (do
        let ca ← encrypt ⟨(5 : Int)⟩ ⟨[]⟩ 0 (fun _ => 0)
        let cb ← encrypt ⟨(3 : Int)⟩ ⟨[]⟩ 0 (fun _ => 0)
        decrypt (cipherAdd ca cb) ⟨[]⟩) = .ok ⟨(8 : Int)⟩ :=
  ⟨by decide, by decide, by decide, by decide,
    C1_add_homomorphism 5 3 ⟨[]⟩ ⟨[]⟩ 0 0 (fun _ => 0) (fun _ => 0) ⟨[]⟩
      (by decide) (by decide) (by decide) (by decide)⟩

/-- Claim C6 counterexample: the challenger's local `encrypt`
(`challenger.rs` lines 239-266) does not fail on the out-of-range plaintext
`65537 = P`: under identical randomness it silently produces exactly the
ciphertext of `0 = 65537 mod P`. -/
theorem C6_challenger_encrypt_silently_reduces :
    challengerEncrypt ⟨(65537 : Int)⟩ 0 (fun _ => 0)
      = challengerEncrypt ⟨(0 : Int)⟩ 0 (fun _ => 0) := by
  decide

/-- Claim C6 (amended): the Encryption Scheme's `encrypt`
(`pure_rust_fhe.rs`) succeeds exactly on plaintexts in `[0, P)` and errors on
every plaintext outside that range; the challenger's local `encrypt` helper,
by contrast, never validates: it always returns a ciphertext and silently
reduces the plaintext (cast `as u64`) modulo `P`. -/
theorem C6_encrypt_range_validation :
    (∀ (pt : Signed) (pk : PublicKey) (noise : Nat) (cn : Nat → Nat),
      (∃ c, encrypt pt pk noise cn = .ok c) ↔ 0 ≤ pt.val ∧ pt.val < (PLAINTEXT_MODULUS : Int))
    ∧ (∀ (pt : Signed) (noise : Nat) (cn : Nat → Nat),
      challengerEncrypt pt noise cn
        = challengerEncrypt ⟨((toU64 pt.val % PLAINTEXT_MODULUS : Nat) : Int)⟩ noise cn) := by
  constructor
  · intro pt pk noise cn
    constructor
    · rintro ⟨c, hc⟩
      rcases (by omega :
          pt.val < 0 ∨ (0 ≤ pt.val ∧ (PLAINTEXT_MODULUS : Int) ≤ pt.val)
            ∨ (0 ≤ pt.val ∧ pt.val < (PLAINTEXT_MODULUS : Int))) with hneg | ⟨hnn, hge⟩ | hin
      · unfold encrypt at hc
        rw [if_pos hneg] at hc
        exact absurd hc (by simp)
      · unfold encrypt at hc
        rw [if_neg (by omega), if_pos (by omega : PLAINTEXT_MODULUS ≤ pt.val.toNat)] at hc
        exact absurd hc (by simp)
      · exact hin
    · rintro ⟨hnn, hlt⟩
      unfold encrypt
      rw [if_neg (by omega)]
      rw [if_neg (by omega : ¬PLAINTEXT_MODULUS ≤ pt.val.toNat)]
      exact ⟨_, rfl⟩
  · intro pt noise cn
    unfold challengerEncrypt
    have hlt : toU64 pt.val % PLAINTEXT_MODULUS < PLAINTEXT_MODULUS :=
      Nat.mod_lt _ (by decide)
    have hred : toU64 ((toU64 pt.val % PLAINTEXT_MODULUS : Nat) : Int) % PLAINTEXT_MODULUS
        = toU64 pt.val % PLAINTEXT_MODULUS := by
      rw [toU64_natCast _ (lt_trans hlt (by decide : PLAINTEXT_MODULUS < U64))]
      exact Nat.mod_eq_of_lt hlt
    rw [hred]

/-- Claim C7: `deserialize_ciphertext` fails with the length-mismatch error
(carrying `expected = 16n` and the actual length) on every buffer whose
length differs from `16n = 512` bytes, and on every 512-byte buffer succeeds,
decoding the `2n = 64` coefficients little-endian (8 bytes each) in order. -/
theorem C7_deserialize_length_validation (data : List Nat) :
    (data.length ≠ POLYNOMIAL_DEGREE * 2 * 8 →
      deserialize_ciphertext data
        = .error (.invalidCiphertextLength (POLYNOMIAL_DEGREE * 2 * 8) data.length))
    ∧ (data.length = POLYNOMIAL_DEGREE * 2 * 8 →
      ∃ c, deserialize_ciphertext data = .ok c
        ∧ c.ciphertext_data.length = POLYNOMIAL_DEGREE * 2
        ∧ ∀ i < POLYNOMIAL_DEGREE * 2,
            c.ciphertext_data.getD i 0
              = ∑ j ∈ Finset.range 8, data.getD (i * 8 + j) 0 * 256 ^ j) := by
  constructor
  · intro h
    unfold deserialize_ciphertext
    rw [if_pos h]
  · intro h
    refine ⟨⟨(List.range (POLYNOMIAL_DEGREE * 2)).map
        (fun i => u64FromLeBytes ((data.drop (i * 8)).take 8))⟩, ?_, ?_, ?_⟩
    · unfold deserialize_ciphertext
      rw [if_neg (by omega)]
    · simp
    · intro i hi
      rw [getD_map_range _ _ i hi, fromLe_eq_sum]
      have hlen : ((data.drop (i * 8)).take 8).length = 8 := by
        rw [List.length_take, List.length_drop]
        have : POLYNOMIAL_DEGREE * 2 = 64 := by decide
        omega
      rw [hlen]
      refine Finset.sum_congr rfl (fun j hj => ?_)
      rw [getD_take _ (Finset.mem_range.mp hj), getD_drop]

set_option maxRecDepth 8192 in
/-- Claim C7 witness: a 42-byte buffer is rejected with
`LengthMismatch { expected := 512, actual := 42 }`, and a 512-byte all-ones
buffer is accepted, each coefficient decoding to `0x0101010101010101`. -/
theorem C7_deserialize_length_validation_witness :
    deserialize_ciphertext (List.replicate 42 0)
      = .error (.invalidCiphertextLength 512 42)
    ∧ deserialize_ciphertext (List.replicate 512 1)
      = .ok ⟨List.replicate 64 72340172838076673⟩ := by
  refine ⟨(C7_deserialize_length_validation (List.replicate 42 0)).1 (by decide), ?_⟩
  obtain ⟨_c, _hc, -, -⟩ :=
    (C7_deserialize_length_validation (List.replicate 512 1)).2 (by decide)
  decide

/-- Claim C8: deserialization inverts serialization on every ciphertext with
exactly `2n = 64` coefficients (each a `u64` value). -/
theorem C8_serialize_roundtrip (c : Cipher)
    (hlen : c.ciphertext_data.length = POLYNOMIAL_DEGREE * 2)
    (hval : ∀ v ∈ c.ciphertext_data, v < U64) :
    deserialize_ciphertext (Cipher.serialize c) = .ok c := by
  unfold deserialize_ciphertext
  rw [if_neg (by rw [length_serialize, hlen]; omega)]
  rw [show POLYNOMIAL_DEGREE * 2 = c.ciphertext_data.length from hlen.symm]
  rw [Except.ok.injEq]
  exact congrArg Cipher.mk (decode_flatten c.ciphertext_data hval)

/-- Claim C8 witness: round trip at a concrete 64-coefficient ciphertext. -/
theorem C8_serialize_roundtrip_witness :
    deserialize_ciphertext (Cipher.serialize ⟨List.replicate 64 18446744073709551615⟩)
      = .ok ⟨List.replicate 64 18446744073709551615⟩ :=
  C8_serialize_roundtrip ⟨List.replicate 64 18446744073709551615⟩ (by decide) (by decide)

/-- Claim C9: on two `2n`-length ciphertexts, homomorphic addition yields a
`2n`-length ciphertext whose coefficient `i` is `(c1[i] + c2[i]) % Q` for
every `i` — including when the native 64-bit sum would overflow — and
`homomorphic_add` returns `Ok` (it never fails). -/
theorem C9_add_componentwise_mod (c1 c2 : Cipher)
    (h1 : c1.ciphertext_data.length = POLYNOMIAL_DEGREE * 2)
    (h2 : c2.ciphertext_data.length = POLYNOMIAL_DEGREE * 2) :
    (cipherAdd c1 c2).ciphertext_data.length = POLYNOMIAL_DEGREE * 2
    ∧ (∀ i < POLYNOMIAL_DEGREE * 2,
        (cipherAdd c1 c2).ciphertext_data.getD i 0
          = (c1.ciphertext_data.getD i 0 + c2.ciphertext_data.getD i 0) % CIPHERTEXT_MODULUS)
    ∧ homomorphic_add c1 c2 = .ok [cipherAdd c1 c2] := by
  refine ⟨by simp [cipherAdd], ?_, rfl⟩
  intro i hi
  unfold cipherAdd
  rw [getD_map_range _ _ i hi, if_pos (by rw [h1, h2]; omega), addCoeff_eq]

/-- Claim C9 witness: adding two all-`u64::MAX` ciphertexts (whose native
sums would all overflow) still yields the correct residues mod `Q`. -/
theorem C9_add_componentwise_mod_witness :
    (cipherAdd ⟨List.replicate 64 18446744073709551615⟩
        ⟨List.replicate 64 18446744073709551615⟩).ciphertext_data.getD 0 0
      = (18446744073709551615 + 18446744073709551615) % CIPHERTEXT_MODULUS :=
  (C9_add_componentwise_mod ⟨List.replicate 64 18446744073709551615⟩
      ⟨List.replicate 64 18446744073709551615⟩ (by decide) (by decide)).2.1 0 (by decide)

/-- Claim C2 counterexample: a ciphertext of plaintext `7` (produced by
`encrypt` with zero noise draws) decrypts to `7` under two distinct,
unrelated private keys alike — an unrelated key reproduces the plaintext
with certainty, not at a chance rate. -/
theorem C2_unrelated_key_decrypts :
    encrypt ⟨(7 : Int)⟩ ⟨List.replicate 32 5⟩ 0 (fun _ => 0)
      = .ok ⟨7 * scaling_factor :: List.replicate 63 0⟩
    ∧ decrypt ⟨7 * scaling_factor :: List.replicate 63 0⟩ ⟨List.replicate 32 1⟩ = .ok ⟨7⟩
    ∧ decrypt ⟨7 * scaling_factor :: List.replicate 63 0⟩ ⟨List.replicate 32 2⟩ = .ok ⟨7⟩
    ∧ (⟨List.replicate 32 1⟩ : PrivateKey) ≠ ⟨List.replicate 32 2⟩ := by
  exact ⟨by decide, by decide, by decide, by decide⟩

/-- Claim C2 (amended): `decrypt` does not read the private key at all: on
every ciphertext, any two private keys produce the identical result, so an
unrelated key reproduces the original plaintext exactly as the matching key
does — with certainty, not at a rate indistinguishable from chance. -/
theorem C2_decrypt_ignores_private_key :
    ∀ (c : Cipher) (k1 k2 : PrivateKey), decrypt c k1 = decrypt c k2 := by
  intro c k1 k2
  rfl

/-- Claim C3: evaluating `create_challenge` at a concrete input (one vote,
drawn plaintext `1`): the assembled executor-facing `ChallengeInput` carries
the challenge plaintexts inside its `challenge_metadata` field, contradicting
the claim that they appear in no field of the outbound payload. -/
theorem C3_payload_contains_plaintexts :
    (create_challenge ⟨⟨List.replicate 32 0⟩, ⟨List.replicate 32 0⟩⟩
        ⟨PLAINTEXT_MODULUS, CIPHERTEXT_MODULUS, POLYNOMIAL_DEGREE⟩
        "mathematical_proof_test" 1 (fun _ => 1) (fun _ => 0) (fun _ _ => 0)
        0).challenge_metadata.challenge_plaintexts = [1] := by
  rfl

/-- Claim C4: whenever the receipt-verification collaborator answers `false`,
`verify_zkvm_result` returns the failed result tagged with the
receipt-validation error and the `RECEIPT_INVALID` log immediately: the
result carries no decrypted data and is independent of the result
ciphertexts (none is deserialized or decrypted). -/
theorem C4_fail_fast_on_invalid_receipt (rv : List Nat → Bool) (ch : ChallengeInput)
    (receipt : List Nat) (cts cts2 : List (List Nat)) (h : rv receipt = false) :
    verifyZkvmResultWith rv ch receipt cts
      = { success := false, error := some .receiptValidationFailed,
          decrypted_results := none, verification_log := [.receiptInvalid] }
    ∧ verifyZkvmResultWith rv ch receipt cts = verifyZkvmResultWith rv ch receipt cts2 := by
  unfold verifyZkvmResultWith
  rw [h]
  exact ⟨rfl, rfl⟩

/-- Claim C4 witness: a collaborator rejecting every receipt forces the
fail-fast result on a concrete challenge regardless of the ciphertext list. -/
theorem C4_fail_fast_on_invalid_receipt_witness :
    verifyZkvmResultWith (fun _ => false)
        ⟨⟨65537, 288230376151711744, 32⟩, ⟨[]⟩, [], ⟨"t", [1], [], 0⟩⟩ [] [[0]]
      = { success := false, error := some .receiptValidationFailed,
          decrypted_results := none, verification_log := [.receiptInvalid] } :=
  (C4_fail_fast_on_invalid_receipt (fun _ => false)
    ⟨⟨65537, 288230376151711744, 32⟩, ⟨[]⟩, [], ⟨"t", [1], [], 0⟩⟩ [] [[0]] [] rfl).1

/-- `deserialize_and_decrypt` on a 512-byte buffer succeeds and yields the
descaled, reduced little-endian decode of the first 8 bytes. -/
theorem deserialize_and_decrypt_ok (data : List Nat)
    (h : data.length = POLYNOMIAL_DEGREE * 2 * 8) :
    deserialize_and_decrypt data = .ok ⟨chalDecryptVal data⟩ := by
  unfold deserialize_and_decrypt
  rw [if_neg (by omega)]
  simp only [chalDecryptVal,
    headD_map_range _ _ (by decide : (0 : Nat) < POLYNOMIAL_DEGREE * 2),
    Nat.zero_mul, List.drop_zero]

/-- The decryption loop of `verify_zkvm_result` on all-valid-length result
ciphertexts returns every decrypted value together with the per-result log. -/
theorem decryptResults_ok : ∀ (cts : List (List Nat)) (i : Nat),
    (∀ c ∈ cts, c.length = POLYNOMIAL_DEGREE * 2 * 8) →
    decryptResults cts i = .ok (cts.map chalDecryptVal, decryptLogFrom i cts) := by
  intro cts
  induction cts with
  | nil => intro i _; rfl
  | cons c rest ih =>
    intro i h
    rw [decryptResults, deserialize_and_decrypt_ok c (h c (List.mem_cons_self c rest)),
      ih (i + 1) (fun x hx => h x (List.mem_cons_of_mem c hx))]
    rfl

/-- No outcome of the decryption loop ever logs `RECEIPT_INVALID`. -/
theorem decryptResults_log_clean : ∀ (cts : List (List Nat)) (i : Nat),
    LogEntry.receiptInvalid ∉ resultLog (decryptResults cts i) := by
  intro cts
  induction cts with
  | nil => intro i; simp [decryptResults, resultLog]
  | cons c rest ih =>
    intro i
    rw [decryptResults]
    cases hd : deserialize_and_decrypt c with
    | error e => simp [resultLog]
    | ok p =>
      cases hr : decryptResults rest (i + 1) with
      | ok vl =>
        obtain ⟨vals, log⟩ := vl
        have hmem := ih (i + 1)
        rw [hr] at hmem
        simp only [resultLog, List.mem_cons] at hmem ⊢
        rintro (hcon | hcon)
        · exact absurd hcon (by simp)
        · exact hmem hcon
      | error jel =>
        obtain ⟨j, e, log⟩ := jel
        have hmem := ih (i + 1)
        rw [hr] at hmem
        simp only [resultLog, List.mem_cons] at hmem ⊢
        rintro (hcon | hcon)
        · exact absurd hcon (by simp)
        · exact hmem hcon

/-- Claim C5: when every result ciphertext has valid length (so each
deserializes and decrypts), `verify_zkvm_result` (whose in-repo receipt check
always passes) succeeds exactly when the sum of the challenge plaintexts
equals the sum of the decrypted results: on equality it returns the verified
result carrying the decrypted values and the log recording the check, and
otherwise the failed result tagged with the arithmetic mismatch carrying the
expected and actual sums. -/
theorem C5_arithmetic_check (ch : ChallengeInput) (receipt : List Nat)
    (cts : List (List Nat))
    (hlen : ∀ c ∈ cts, c.length = POLYNOMIAL_DEGREE * 2 * 8) :
    verify_zkvm_result ch receipt cts =
      if ch.challenge_metadata.challenge_plaintexts.sum = (cts.map chalDecryptVal).sum then
        { success := true, error := none,
          decrypted_results := some (cts.map chalDecryptVal),
          verification_log :=
            decryptLogFrom 0 cts ++ [.fheComputationVerified, .proofComplete] }
      else
        { success := false,
          error := some (.arithmeticMismatch ch.challenge_metadata.challenge_plaintexts.sum
            (cts.map chalDecryptVal).sum),
          decrypted_results := some (cts.map chalDecryptVal),
          verification_log := decryptLogFrom 0 cts } := by
  unfold verify_zkvm_result verifyZkvmResultWith
  rw [if_neg (by simp [verify_receipt] : ¬(verify_receipt receipt = false))]
  rw [decryptResults_ok cts 0 hlen]

set_option maxRecDepth 8192 in
/-- Claim C5 witness: a challenge with plaintext sum `0` against one
all-zero 512-byte result ciphertext (decrypting to `0`) verifies; with
plaintext sum `1` against the same result it fails with
`ArithmeticMismatch { expected := 1, actual := 0 }`. -/
theorem C5_arithmetic_check_witness :
    verify_zkvm_result ⟨⟨65537, 288230376151711744, 32⟩, ⟨[]⟩, [], ⟨"t", [0], [], 0⟩⟩
        [] [List.replicate 512 0]
      = { success := true, error := none, decrypted_results := some [0],
          verification_log := [.resultDecrypted 1 0, .fheComputationVerified, .proofComplete] }
    ∧ verify_zkvm_result ⟨⟨65537, 288230376151711744, 32⟩, ⟨[]⟩, [], ⟨"t", [1], [], 0⟩⟩
        [] [List.replicate 512 0]
      = { success := false, error := some (.arithmeticMismatch 1 0),
          decrypted_results := some [0],
          verification_log := [.resultDecrypted 1 0] } := by
  constructor
  · rw [C5_arithmetic_check _ [] [List.replicate 512 0] (by decide)]
    decide
  · rw [C5_arithmetic_check _ [] [List.replicate 512 0] (by decide)]
    decide

/-- Claim C10: the in-repo receipt check `verify_receipt` answers `true` for
every receipt byte string, and consequently `verify_zkvm_result` never
produces the receipt-invalid failure: no input yields the
receipt-validation error or the `RECEIPT_INVALID` log entry. -/
theorem C10_receipt_check_vacuous :
    (∀ receipt : List Nat, verify_receipt receipt = true)
    ∧ ∀ (ch : ChallengeInput) (receipt : List Nat) (cts : List (List Nat)),
        LogEntry.receiptInvalid ∉ (verify_zkvm_result ch receipt cts).verification_log
        ∧ (verify_zkvm_result ch receipt cts).error ≠ some .receiptValidationFailed := by
  refine ⟨fun _ => rfl, ?_⟩
  intro ch receipt cts
  unfold verify_zkvm_result verifyZkvmResultWith
  rw [if_neg (by simp [verify_receipt] : ¬(verify_receipt receipt = false))]
  have hclean := decryptResults_log_clean cts 0
  split
  · rename_i idx e log heq
    rw [heq] at hclean
    simp only [resultLog] at hclean
    exact ⟨hclean, by simp⟩
  · rename_i dr log heq
    rw [heq] at hclean
    simp only [resultLog] at hclean
    dsimp only
    split
    · refine ⟨?_, by simp⟩
      simp only [List.mem_append, List.mem_cons]
      rintro (hcon | hcon)
      · exact hclean hcon
      · simp at hcon
    · exact ⟨hclean, by simp⟩

end FheZkvm
